import Mathlib

/-!
Verification of the RAG chatbot backend (babeard1/ai-rag-chatbot).

The Python sources are shallowly embedded: Python strings become `List Char`,
Python ints become `Int` (indices may be negative), Python slices, `rfind`
and `strip` are modelled by `pySlice`, `pyRfind` and `pyStrip` below, and the
`while` loop of `PDFService.chunk_text` becomes a fuel-indexed recursion
returning `none` when the fuel runs out (i.e. when the loop diverges).
-/

set_option maxRecDepth 10000

/-- Python `str.isspace` membership for a single character: the whitespace
characters removed by `str.strip()`. -/
def pyWsp (c : Char) : Bool :=
  c = ' ' || c = '\t' || c = '\n' || c = '\r' || c = '\x0b' || c = '\x0c'

/-- Python slice-index normalisation: a negative index counts from the end of
the string, and the result is clamped into `[0, n]`. -/
def pyIdx (n : Nat) (i : Int) : Nat :=
  if i < 0 then (max (i + n) 0).toNat else (min i (n : Int)).toNat

/-- Python slice `t[a:b]`. -/
def pySlice (t : List Char) (a b : Int) : List Char :=
  (t.take (pyIdx t.length b)).drop (pyIdx t.length a)

/-- Helper for `pyRfind`: scan left to right remembering the last index where
`pat` occurs. -/
def pyRfindAux (pat : List Char) : List Char → Nat → Int → Int
  | [], _, best => best
  | c :: rest, i, best =>
      pyRfindAux pat rest (i + 1) (if pat.isPrefixOf (c :: rest) then (i : Int) else best)

/-- Python `t.rfind(pat)` for a non-empty pattern: the greatest index at which
`pat` occurs in `t`, or `-1` when it does not occur. -/
def pyRfind (t pat : List Char) : Int :=
  pyRfindAux pat t 0 (-1)

/-- Python `t.strip()`: remove leading and trailing whitespace. -/
def pyStrip (t : List Char) : List Char :=
  ((t.dropWhile pyWsp).reverse.dropWhile pyWsp).reverse

/-- Boundary adjustment of `PDFService.chunk_text` (src/backend/services/pdf_service.py,
lines 100-121): when the candidate end does not reach the end of the text, try to
cut at the last sentence terminator in the trailing 100 characters, else at the
last space in the trailing 50 characters, else keep the raw end. -/
def adjustEnd (text : List Char) (end0 : Int) : Int :=
  if end0 < (text.length : Int) then
    if max (pyRfind (pySlice text (end0 - 100) end0) ['.', ' '])
        (max (pyRfind (pySlice text (end0 - 100) end0) ['!', ' '])
          (pyRfind (pySlice text (end0 - 100) end0) ['?', ' '])) ≠ -1 then
      end0 - 100 +
        max (pyRfind (pySlice text (end0 - 100) end0) ['.', ' '])
          (max (pyRfind (pySlice text (end0 - 100) end0) ['!', ' '])
            (pyRfind (pySlice text (end0 - 100) end0) ['?', ' '])) + 1
    else
      if pyRfind (pySlice text (end0 - 50) end0) [' '] ≠ -1 then
        end0 - 50 + pyRfind (pySlice text (end0 - 50) end0) [' ']
      else end0
  else end0

/-- One iteration of the `while` loop of `PDFService.chunk_text` (lines 99-133):
returns the next value of `start` and the (stripped) chunk of this iteration. -/
def chunkStep (text : List Char) (chunkSize overlap start : Int) : Int × List Char :=
  (if adjustEnd text (start + chunkSize) - overlap ≤
      adjustEnd text (start + chunkSize) - chunkSize then
    adjustEnd text (start + chunkSize)
   else adjustEnd text (start + chunkSize) - overlap,
   pyStrip (pySlice text start (adjustEnd text (start + chunkSize))))

/-- The `while` loop of `PDFService.chunk_text`, with fuel; `none` means the
fuel ran out (the Python loop would still be running). -/
def chunkLoop (text : List Char) (chunkSize overlap : Int) :
    Nat → Int → List (List Char) → Option (List (List Char))
  | 0, _, _ => none
  | fuel + 1, start, acc =>
      if start < (text.length : Int) then
        chunkLoop text chunkSize overlap fuel (chunkStep text chunkSize overlap start).1
          (if (chunkStep text chunkSize overlap start).2.isEmpty then acc
           else acc ++ [(chunkStep text chunkSize overlap start).2])
      else some acc

/-- `PDFService.chunk_text` (lines 74-136): split text into overlapping chunks. -/
def chunk_text (text : List Char) (chunkSize overlap : Int) (fuel : Nat) :
    Option (List (List Char)) :=
  if text.length = 0 then some []
  else if (text.length : Int) ≤ chunkSize then some [text]
  else chunkLoop text chunkSize overlap fuel 0 []

/-- A page dictionary as consumed by `PDFService.chunk_pages`. -/
structure PageRec where
  page_number : Int
  text : List Char
deriving DecidableEq

/-- A chunk dictionary as produced by `PDFService.chunk_pages` (lines 167-174). -/
structure ChunkRec where
  text : List Char
  page : Int
  chunk_index : Nat
  char_count : Nat
deriving DecidableEq

/-- Attach page metadata to the chunks of one page (the inner loop of
`chunk_pages`, lines 167-174). -/
def attachChunks (pageNum : Int) : Nat → List (List Char) → List ChunkRec
  | _, [] => []
  | idx, c :: cs => ⟨c, pageNum, idx, c.length⟩ :: attachChunks pageNum (idx + 1) cs

/-- The page loop of `PDFService.chunk_pages` (lines 156-174). -/
def chunk_pages_aux (chunkSize overlap : Int) (fuel : Nat) :
    List PageRec → Nat → Option (List ChunkRec)
  | [], _ => some []
  | p :: rest, idx =>
      if p.text.isEmpty then chunk_pages_aux chunkSize overlap fuel rest idx
      else
        match chunk_text p.text chunkSize overlap fuel with
        | none => none
        | some cks =>
            match chunk_pages_aux chunkSize overlap fuel rest (idx + cks.length) with
            | none => none
            | some recs => some (attachChunks p.page_number idx cks ++ recs)

/-- `PDFService.chunk_pages` (lines 138-177). -/
def chunk_pages (pages : List PageRec) (chunkSize overlap : Int) (fuel : Nat) :
    Option (List ChunkRec) :=
  chunk_pages_aux chunkSize overlap fuel pages 0

/-- Concrete text for the overlap ≥ chunk_size scenario: sixty letters. -/
def c1Text : List Char := List.replicate 60 'x'

/-- Concrete text on which `chunk_text` with the valid configuration
`chunk_size = 100, overlap = 50` loops forever: forty-nine letters, a sentence
terminator, then sixty letters. -/
def c2Text : List Char := List.replicate 49 'a' ++ '.' :: ' ' :: List.replicate 60 'b'

theorem chunkStep_overlap_ge (text : List Char) (cs ov s : Int)
    (h1 : 1 ≤ cs) (h2 : cs ≤ ov) :
    chunkStep text cs ov s = chunkStep text cs 0 s := by
  unfold chunkStep
  have ha : adjustEnd text (s + cs) - ov ≤ adjustEnd text (s + cs) - cs := by omega
  have hb : ¬(adjustEnd text (s + cs) - 0 ≤ adjustEnd text (s + cs) - cs) := by omega
  simp [ha, hb]

theorem chunkLoop_overlap_ge (text : List Char) (cs ov : Int)
    (h1 : 1 ≤ cs) (h2 : cs ≤ ov) :
    ∀ fuel (s : Int) (acc : List (List Char)),
      chunkLoop text cs ov fuel s acc = chunkLoop text cs 0 fuel s acc := by
  intro fuel
  induction fuel with
  | zero => intro s acc; rfl
  | succ n ih =>
      intro s acc
      simp only [chunkLoop, chunkStep_overlap_ge text cs ov s h1 h2]
      split
      · exact ih _ _
      · rfl

/-- The claim that `chunk_text` with `overlap ≥ chunk_size` fails with a
`ConfigurationError` before producing any chunks is false: on a 60-character
text with `chunk_size = 50, overlap = 100` the call succeeds and produces two
chunks (no validation of the overlap/chunk_size relationship exists in the
code). -/
theorem chunk_text_overlap_ge_size_produces_chunks :
    chunk_text c1Text 50 100 5 =
      some [List.replicate 50 'x', List.replicate 10 'x'] ∧
    ([List.replicate 50 'x', List.replicate 10 'x'] : List (List Char)) ≠ [] := by
  constructor
  · decide
  · decide

/-- Claim C1 (amended): `chunk_text` performs no validation of
`overlap ≥ chunk_size` and raises no `ConfigurationError`; instead the
anti-infinite-loop guard forces `start = end` on every iteration, so the call
behaves, fuel for fuel, exactly as the call with `overlap = 0`. (No
termination is implied: the boundary snap-back can still make the shared
`overlap`-independent run diverge — see `chunk_text_overlap_ge_can_diverge`.) -/
theorem chunk_text_overlap_ge_size_eq_zero_overlap
    (text : List Char) (cs ov : Int) (fuel : Nat)
    (h1 : 1 ≤ cs) (h2 : cs ≤ ov) :
    chunk_text text cs ov fuel = chunk_text text cs 0 fuel := by
  unfold chunk_text
  split
  · rfl
  · split
    · rfl
    · exact chunkLoop_overlap_ge text cs ov h1 h2 fuel 0 []

/-- Witness for `chunk_text_overlap_ge_size_eq_zero_overlap` at a concrete
input. -/
theorem chunk_text_overlap_ge_size_eq_zero_overlap_witness :
    (1 : Int) ≤ 50 ∧ (50 : Int) ≤ 100 ∧
      chunk_text c1Text 50 100 5 = chunk_text c1Text 50 0 5 :=
  ⟨by norm_num, by norm_num,
    chunk_text_overlap_ge_size_eq_zero_overlap c1Text 50 100 5 (by norm_num) (by norm_num)⟩

/-- Concrete text on which `chunk_text` with `chunk_size = 50` diverges for
every overlap ≥ 50 (and for overlap 0): a space followed by one hundred
letters. The word-boundary snap-back finds the space at index 0 of
`text[0:50]` and sets `end = 0 = start` on every iteration. -/
def c1DivText : List Char := ' ' :: List.replicate 100 'a'

theorem chunkStep_c1Div_fixed : (chunkStep c1DivText 50 100 0).1 = 0 := by decide

theorem chunkLoop_c1Div_none :
    ∀ fuel (acc : List (List Char)), chunkLoop c1DivText 50 100 fuel 0 acc = none := by
  intro fuel
  induction fuel with
  | zero => intro acc; rfl
  | succ n ih =>
      intro acc
      have hlt : (0 : Int) < (c1DivText.length : Int) := by decide
      simp only [chunkLoop, if_pos hlt, chunkStep_c1Div_fixed]
      exact ih _

/-- With `overlap ≥ chunk_size` the call does not error, but it need not
terminate either: on `" " + "a"*100` with `chunk_size = 50, overlap = 100`
the loop never advances past `start = 0`. -/
theorem chunk_text_overlap_ge_can_diverge :
    ∀ fuel : Nat, chunk_text c1DivText 50 100 fuel = none := by
  intro fuel
  unfold chunk_text
  rw [if_neg (by decide), if_neg (by decide)]
  exact chunkLoop_c1Div_none fuel []

theorem chunkStep_c2_fixed : (chunkStep c2Text 100 50 0).1 = 0 := by decide

theorem chunkLoop_c2_none :
    ∀ fuel (acc : List (List Char)), chunkLoop c2Text 100 50 fuel 0 acc = none := by
  intro fuel
  induction fuel with
  | zero => intro acc; rfl
  | succ n ih =>
      intro acc
      have hlt : (0 : Int) < (c2Text.length : Int) := by decide
      simp only [chunkLoop, if_pos hlt, chunkStep_c2_fixed]
      exact ih _

/-- Claim C2: on the valid configuration `chunk_size = 100, overlap = 50` and
the text `"a"*49 ++ ". " ++ "b"*60`, the `while` loop of `chunk_text` never
advances (`start` stays `0` forever), so `chunk_text` does not terminate for
any amount of fuel — contradicting both the claimed termination bound and the
code's own `# Prevent infinite loop` guard. -/
theorem chunk_text_nonterminating_on_valid_config :
    ∀ fuel : Nat, chunk_text c2Text 100 50 fuel = none := by
  intro fuel
  unfold chunk_text
  rw [if_neg (by decide), if_neg (by decide)]
  exact chunkLoop_c2_none fuel []

theorem dropWhile_dropWhile (p : Char → Bool) (l : List Char) :
    (l.dropWhile p).dropWhile p = l.dropWhile p := by
  induction l with
  | nil => rfl
  | cons a t ih =>
      by_cases h : p a
      · simp [List.dropWhile_cons, h, ih]
      · simp [List.dropWhile_cons, h]

theorem dropWhile_head_false (p : Char → Bool) (l : List Char) (a : Char) (t : List Char)
    (h : l.dropWhile p = a :: t) : p a = false := by
  induction l with
  | nil => simp at h
  | cons b u ih =>
      by_cases hb : p b
      · exact ih (by simpa [List.dropWhile_cons, hb] using h)
      · rw [List.dropWhile_cons] at h
        simp [hb] at h
        rw [← h.1]
        simpa using hb


theorem pyStrip_pyStrip (w : List Char) : pyStrip (pyStrip w) = pyStrip w := by
  have hrev : (pyStrip w).reverse = (w.dropWhile pyWsp).reverse.dropWhile pyWsp := by
    simp [pyStrip]
  have hB : (pyStrip w).reverse.dropWhile pyWsp = (pyStrip w).reverse := by
    rw [hrev]; exact dropWhile_dropWhile pyWsp _
  have hs : w.dropWhile pyWsp =
      pyStrip w ++ ((w.dropWhile pyWsp).reverse.takeWhile pyWsp).reverse := by
    have h1 : (w.dropWhile pyWsp).reverse =
        ((w.dropWhile pyWsp).reverse.takeWhile pyWsp) ++ (pyStrip w).reverse := by
      rw [hrev]; exact (List.takeWhile_append_dropWhile ..).symm
    have h2 := congrArg List.reverse h1
    simpa using h2
  have hA : (pyStrip w).dropWhile pyWsp = pyStrip w := by
    cases hc : pyStrip w with
    | nil => rfl
    | cons a t =>
        rw [hc] at hs
        have ha : pyWsp a = false :=
          dropWhile_head_false pyWsp w a
            (t ++ ((w.dropWhile pyWsp).reverse.takeWhile pyWsp).reverse) (by simpa using hs)
        simp [List.dropWhile_cons, ha]
  calc pyStrip (pyStrip w)
      = (((pyStrip w).dropWhile pyWsp).reverse.dropWhile pyWsp).reverse := rfl
    _ = ((pyStrip w).reverse.dropWhile pyWsp).reverse := by rw [hA]
    _ = pyStrip w := by rw [hB]; simp

theorem chunkStep_snd_stripped (text : List Char) (cs ov s : Int) :
    pyStrip (chunkStep text cs ov s).2 = (chunkStep text cs ov s).2 := by
  have h : (chunkStep text cs ov s).2 =
      pyStrip (pySlice text s (adjustEnd text (s + cs))) := rfl
  rw [h, pyStrip_pyStrip]

theorem chunkLoop_chunks_stripped (text : List Char) (cs ov : Int) :
    ∀ (fuel : Nat) (s : Int) (acc res : List (List Char)),
      (∀ c ∈ acc, pyStrip c ≠ []) →
      chunkLoop text cs ov fuel s acc = some res →
      ∀ c ∈ res, pyStrip c ≠ [] := by
  intro fuel
  induction fuel with
  | zero => intro s acc res hacc h; simp [chunkLoop] at h
  | succ n ih =>
      intro s acc res hacc h
      rw [chunkLoop] at h
      split at h
      · refine ih _ _ _ ?_ h
        intro c hc
        split at hc
        · exact hacc c hc
        · rename_i hne
          rcases List.mem_append.1 hc with h1 | h1
          · exact hacc c h1
          · have hc2 : c = (chunkStep text cs ov s).2 := by simpa using h1
            subst hc2
            rw [chunkStep_snd_stripped]
            intro hnil
            rw [hnil] at hne
            simp at hne
      · cases h
        intro c hc
        exact hacc c hc

theorem chunk_text_chunks_stripped (text : List Char) (cs ov : Int) (fuel : Nat)
    (chunks : List (List Char)) (htext : text = [] ∨ pyStrip text ≠ [])
    (h : chunk_text text cs ov fuel = some chunks) :
    ∀ c ∈ chunks, pyStrip c ≠ [] := by
  unfold chunk_text at h
  split at h
  · cases h; intro c hc; simp at hc
  · split at h
    · cases h
      intro c hc
      have hc' : c = text := by simpa using hc
      subst hc'
      rcases htext with h1 | h1
      · rename_i hlen _
        rw [h1] at hlen
        simp at hlen
      · exact h1
    · exact chunkLoop_chunks_stripped text cs ov fuel 0 [] chunks (by simp) h

theorem attachChunks_text_mem (pn : Int) :
    ∀ (idx : Nat) (cks : List (List Char)) (r : ChunkRec),
      r ∈ attachChunks pn idx cks → r.text ∈ cks := by
  intro idx cks
  induction cks generalizing idx with
  | nil => intro r hr; simp [attachChunks] at hr
  | cons c cs ih =>
      intro r hr
      rw [attachChunks] at hr
      rcases List.mem_cons.1 hr with hr | hr
      · subst hr; simp
      · exact List.mem_cons_of_mem _ (ih _ _ hr)

/-- Claim C9 (amended): when every input page text is either empty or non-empty
after trimming (as the whitespace-normalising extractor guarantees), every chunk
emitted by `chunk_pages` has text that is non-empty after trimming. Unrestricted,
the claim is false: the small-text path of `chunk_text` returns the page text
untrimmed and unchecked, so a whitespace-only page text is emitted verbatim. -/
theorem chunk_pages_chunks_trim_nonempty (pages : List PageRec) (cs ov : Int)
    (fuel : Nat) (recs : List ChunkRec)
    (hp : ∀ p ∈ pages, p.text = [] ∨ pyStrip p.text ≠ [])
    (h : chunk_pages pages cs ov fuel = some recs) :
    ∀ r ∈ recs, pyStrip r.text ≠ [] := by
  unfold chunk_pages at h
  suffices H : ∀ (ps : List PageRec) (idx : Nat) (rs : List ChunkRec),
      (∀ p ∈ ps, p.text = [] ∨ pyStrip p.text ≠ []) →
      chunk_pages_aux cs ov fuel ps idx = some rs →
      ∀ r ∈ rs, pyStrip r.text ≠ [] by
    exact H pages 0 recs hp h
  intro ps
  induction ps with
  | nil => intro idx rs hps hh; cases hh; intro r hr; simp at hr
  | cons p rest ih =>
      intro idx rs hps hh
      rw [chunk_pages_aux] at hh
      split at hh
      · exact ih idx rs (fun q hq => hps q (List.mem_cons_of_mem _ hq)) hh
      · rcases hck : chunk_text p.text cs ov fuel with _ | cks
        · rw [hck] at hh; cases hh
        · rw [hck] at hh
          dsimp only at hh
          rcases hrest : chunk_pages_aux cs ov fuel rest (idx + cks.length) with _ | rs2
          · rw [hrest] at hh; cases hh
          · rw [hrest] at hh
            dsimp only at hh
            cases hh
            intro r hr
            rcases List.mem_append.1 hr with h1 | h1
            · have hmem : r.text ∈ cks := attachChunks_text_mem _ _ _ _ h1
              exact chunk_text_chunks_stripped p.text cs ov fuel cks
                (hps p (List.mem_cons_self p rest)) hck r.text hmem
            · exact ih _ _ (fun q hq => hps q (List.mem_cons_of_mem _ hq)) hrest r h1

/-- The claim that every emitted chunk is non-empty after trimming is false as
stated: a page whose text is a single space is emitted verbatim as a single
chunk (the small-text path skips both the strip and the emptiness check), and
that chunk is empty after trimming. -/
theorem chunk_pages_emits_whitespace_chunk :
    chunk_pages [⟨1, [' ']⟩] 500 50 1 = some [⟨[' '], 1, 0, 1⟩] ∧
      pyStrip [' '] = [] := by
  constructor
  · decide
  · decide

/-- Witness for `chunk_pages_chunks_trim_nonempty` at a concrete input. -/
theorem chunk_pages_chunks_trim_nonempty_witness :
    (∀ p ∈ [(⟨1, ['h', 'i']⟩ : PageRec)], p.text = [] ∨ pyStrip p.text ≠ []) ∧
      ∀ r ∈ [(⟨['h', 'i'], 1, 0, 2⟩ : ChunkRec)], pyStrip r.text ≠ [] :=
  ⟨by decide,
    chunk_pages_chunks_trim_nonempty [⟨1, ['h', 'i']⟩] 500 50 1
      [⟨['h', 'i'], 1, 0, 2⟩] (by decide) (by decide)⟩

/-- No two adjacent whitespace characters. -/
def noDblWsp : List Char → Bool
  | [] => true
  | [_] => true
  | a :: b :: t => (!(pyWsp a && pyWsp b)) && noDblWsp (b :: t)

/-- A whitespace-normalised text, as produced by
`PDFService.extract_text_from_pdf` via `" ".join(page_text.split())`: no two
adjacent whitespace characters, and no leading or trailing whitespace. -/
def normalizedB (t : List Char) : Bool :=
  noDblWsp t && t.head?.all (fun c => !pyWsp c) && t.getLast?.all (fun c => !pyWsp c)

/-- Concrete page text of length 151 on which the chunk char_count sum falls
short of the page length: ninety-nine letters, a sentence terminator, a space,
then fifty letters. -/
def c4Text : List Char := List.replicate 99 'a' ++ '.' :: ' ' :: List.replicate 50 'b'

/-- The claim that for every valid configuration the char_count sum of a page's
chunks is at least the page's (whitespace-normalised) text length is false: with
the valid configuration `chunk_size = 101, overlap = 0` the sentence-boundary
cut puts the following space at the start of the second window, the strip
removes it, and the chunk char_counts sum to 150 while the page text has 151
characters. -/
theorem chunk_pages_charCount_sum_lt_page_length :
    ((0 : Int) ≤ 0 ∧ (0 : Int) < 101) ∧
    normalizedB c4Text = true ∧
    chunk_pages [⟨1, c4Text⟩] 101 0 5 =
      some [⟨List.replicate 99 'a' ++ ['.'], 1, 0, 100⟩,
            ⟨List.replicate 50 'b', 1, 1, 50⟩] ∧
    100 + 50 < c4Text.length := by
  exact ⟨⟨by norm_num, by norm_num⟩, by decide, by decide, by decide⟩

/-- `EmbeddingService.create_embedding`
(src/backend/services/embedding_service.py, lines 31-49). The external
sentence-transformer model is an opaque function `enc`; the result pairs the
returned vector with the number of provider (model) invocations made. The
configured dimension is 384 (line 22). -/
def create_embedding (enc : List Char → List ℚ) (text : List Char) : List ℚ × Nat :=
  if text.isEmpty || (pyStrip text).isEmpty then (List.replicate 384 0, 0)
  else (enc text, 1)

/-- The accumulating `for` loop of `create_embeddings_batch` (lines 67-70). -/
def embBatchGo (enc : List Char → List ℚ) :
    List (List Char) → List (List ℚ) → List (List ℚ)
  | [], acc => acc
  | t :: rest, acc => embBatchGo enc rest (acc ++ [(create_embedding enc t).1])

/-- `EmbeddingService.create_embeddings_batch` (lines 51-73). -/
def create_embeddings_batch (enc : List Char → List ℚ) (texts : List (List Char)) :
    List (List ℚ) :=
  if texts.isEmpty then [] else embBatchGo enc texts []

theorem embBatchGo_eq_append (enc : List Char → List ℚ) :
    ∀ (texts : List (List Char)) (acc : List (List ℚ)),
      embBatchGo enc texts acc = acc ++ texts.map (fun t => (create_embedding enc t).1) := by
  intro texts
  induction texts with
  | nil => intro acc; simp [embBatchGo]
  | cons t rest ih => intro acc; rw [embBatchGo, ih]; simp

/-- Claim C7: `create_embeddings_batch` is the ordered application of
`create_embedding`: the output is exactly the element-wise map, so it has the
same length as the input and the vector at index `i` is `create_embedding` of
the text at index `i`, with no reordering or deduplication. -/
theorem create_embeddings_batch_eq_map (enc : List Char → List ℚ)
    (texts : List (List Char)) :
    create_embeddings_batch enc texts =
        texts.map (fun t => (create_embedding enc t).1) ∧
      (create_embeddings_batch enc texts).length = texts.length ∧
      ∀ i : Nat, (create_embeddings_batch enc texts)[i]? =
        (texts[i]?).map (fun t => (create_embedding enc t).1) := by
  have hmain : create_embeddings_batch enc texts =
      texts.map (fun t => (create_embedding enc t).1) := by
    unfold create_embeddings_batch
    split
    · rename_i hE
      rw [List.isEmpty_iff.1 hE]
      rfl
    · rw [embBatchGo_eq_append]
      simp
  refine ⟨hmain, ?_, ?_⟩
  · rw [hmain]; simp
  · intro i; rw [hmain]; simp [List.getElem?_map]

/-- Claim C8: for blank or whitespace-only text, `create_embedding` returns a
zero-filled vector of the configured dimension 384 and performs zero provider
invocations (and, being a total function, raises nothing). -/
theorem create_embedding_blank_zero_vector (enc : List Char → List ℚ)
    (text : List Char) (h : pyStrip text = []) :
    create_embedding enc text = (List.replicate 384 0, 0) ∧
      (create_embedding enc text).1.length = 384 := by
  have hB : (pyStrip text).isEmpty = true := by rw [h]; rfl
  have hmain : create_embedding enc text = (List.replicate 384 0, 0) := by
    unfold create_embedding
    rw [hB]
    simp
  exact ⟨hmain, by rw [hmain]; simp⟩

/-- Witness for `create_embedding_blank_zero_vector` at the whitespace-only
text `" \t "`. -/
theorem create_embedding_blank_zero_vector_witness :
    create_embedding (fun _ => [1]) [' ', '\t', ' '] = (List.replicate 384 0, 0) ∧
      (create_embedding (fun _ => [1]) [' ', '\t', ' ']).1.length = 384 :=
  create_embedding_blank_zero_vector (fun _ => [1]) [' ', '\t', ' '] (by decide)

/-- Little-endian decimal digits of `n`, fuel-indexed (the fuel `n` itself
always suffices); models Python `str(int)` digit production. -/
def decDigitsAux : Nat → Nat → List Char
  | 0, _ => []
  | _ + 1, 0 => []
  | f + 1, n + 1 => Nat.digitChar ((n + 1) % 10) :: decDigitsAux f ((n + 1) / 10)

/-- Python `str(n)` for a non-negative int `n`: its decimal representation. -/
def decRepr (n : Nat) : List Char :=
  if n = 0 then ['0'] else (decDigitsAux n n).reverse

theorem decDigitsAux_eq_digits :
    ∀ (f n : Nat), n ≤ f → decDigitsAux f n = (Nat.digits 10 n).map Nat.digitChar := by
  intro f
  induction f with
  | zero =>
      intro n hn
      interval_cases n
      simp [decDigitsAux]
  | succ f ih =>
      intro n hn
      cases n with
      | zero => simp [decDigitsAux]
      | succ m =>
          rw [decDigitsAux, Nat.digits_def' (by norm_num : (1:ℕ) < 10) (Nat.succ_pos m)]
          rw [List.map_cons]
          congr 1
          exact ih _ (by
            have : (m + 1) / 10 < m + 1 := Nat.div_lt_self (Nat.succ_pos m) (by norm_num)
            omega)

theorem decRepr_eq (n : Nat) :
    decRepr n = if n = 0 then ['0'] else ((Nat.digits 10 n).map Nat.digitChar).reverse := by
  unfold decRepr
  split
  · rfl
  · rw [decDigitsAux_eq_digits n n le_rfl]

theorem digitChar_inj_lt :
    ∀ a < 10, ∀ b < 10, Nat.digitChar a = Nat.digitChar b → a = b := by decide

theorem map_digitChar_inj :
    ∀ (l1 l2 : List Nat), (∀ d ∈ l1, d < 10) → (∀ d ∈ l2, d < 10) →
      l1.map Nat.digitChar = l2.map Nat.digitChar → l1 = l2 := by
  intro l1
  induction l1 with
  | nil => intro l2 _ _ h; cases l2 <;> simp_all
  | cons d ds ih =>
      intro l2 h1 h2 h
      cases l2 with
      | nil => simp at h
      | cons e es =>
          rw [List.map_cons, List.map_cons] at h
          have hde : d = e := by
            refine digitChar_inj_lt d ?_ e ?_ (by injection h)
            · exact h1 d (List.mem_cons_self d ds)
            · exact h2 e (List.mem_cons_self e es)
          have hrest : ds = es := by
            refine ih es ?_ ?_ (by injection h)
            · exact fun x hx => h1 x (List.mem_cons_of_mem _ hx)
            · exact fun x hx => h2 x (List.mem_cons_of_mem _ hx)
          rw [hde, hrest]

theorem decRepr_inj : ∀ (m n : Nat), decRepr m = decRepr n → m = n := by
  have key : ∀ k : Nat, k ≠ 0 → decRepr k = ['0'] → False := by
    intro k hk h
    rw [decRepr_eq, if_neg hk] at h
    have h2 : (Nat.digits 10 k).map Nat.digitChar = ['0'] := by
      have := congrArg List.reverse h
      simpa using this
    have h3 : Nat.digits 10 k = [0] := by
      refine map_digitChar_inj _ [0] ?_ ?_ ?_
      · exact fun d hd => Nat.digits_lt_base (by norm_num) hd
      · intro d hd; simp at hd; omega
      · simpa using h2
    have h4 := Nat.ofDigits_digits 10 k
    rw [h3] at h4
    simp [Nat.ofDigits] at h4
    omega
  intro m n h
  by_cases hm : m = 0 <;> by_cases hn : n = 0
  · omega
  · exfalso
    refine key n hn ?_
    rw [← h, decRepr_eq, if_pos hm]
  · exfalso
    refine key m hm ?_
    rw [h, decRepr_eq, if_pos hn]
  · rw [decRepr_eq, if_neg hm, decRepr_eq, if_neg hn] at h
    have h2 : (Nat.digits 10 m).map Nat.digitChar = (Nat.digits 10 n).map Nat.digitChar := by
      have := congrArg List.reverse h
      simpa using this
    have h3 : Nat.digits 10 m = Nat.digits 10 n := by
      refine map_digitChar_inj _ _ ?_ ?_ h2
      · exact fun d hd => Nat.digits_lt_base (by norm_num) hd
      · exact fun d hd => Nat.digits_lt_base (by norm_num) hd
    have h4 := Nat.ofDigits_digits 10 m
    rw [h3, Nat.ofDigits_digits] at h4
    omega

/-- The vector id built by `upload_document` (src/backend/main.py, line 95):
`f"{file.filename}_chunk_{chunk['chunk_id']}"`. -/
def upload_vector_id (filename : List Char) (chunkId : Nat) : List Char :=
  filename ++ "_chunk_".data ++ decRepr chunkId

/-- Modelled from the spec: the chunk ids attached by the chunking helper that
`main.py` imports (`chunk_text_with_page_tracking`, absent from the sources)
are, per the spec, non-negative sequence order within the document, so one
upload call of a document with `n` chunks creates the ids for chunk ids
`0, …, n-1` via `upload_vector_id` (main.py, lines 82-101). -/
def upload_vector_ids (filename : List Char) (n : Nat) : List (List Char) :=
  (List.range n).map (upload_vector_id filename)

/-- The claim that vector-record ids are globally unique across upload calls is
false: the id depends only on the filename and the per-document chunk id, so a
second upload of the same filename creates exactly the same (non-empty) id
list as the first — every id of the re-upload collides with one from the first
upload. -/
theorem upload_ids_reupload_collision :
    upload_vector_ids "doc.pdf".data 3 = upload_vector_ids "doc.pdf".data 3 ∧
      upload_vector_ids "doc.pdf".data 3 ≠ [] := by
  constructor
  · rfl
  · decide

/-- Claim C3 (amended): the ids created by a single upload call are pairwise
distinct (distinct chunk ids give distinct ids), but uniqueness is not global:
ids are deterministic in (filename, chunk id) and are therefore reused by
re-uploads of the same filename; only the unused `store_vector` path creates
random UUID ids. -/
theorem upload_ids_nodup_within_upload (filename : List Char) (n : Nat) :
    (upload_vector_ids filename n).Nodup := by
  have hinj : Function.Injective (upload_vector_id filename) := by
    intro i j h
    unfold upload_vector_id at h
    rw [List.append_assoc, List.append_assoc] at h
    exact decRepr_inj i j (List.append_cancel_left (List.append_cancel_left h))
  exact (List.nodup_range n).map hinj

/-- Result of `VectorService.store_vector`
(src/backend/services/vector_service.py, lines 90-156), up to the Pinecone
upsert: the `ValueError` branch (line 107-108, a Python chained comparison),
the empty-texts branch (line 110-111), and otherwise the `zip`-paired records
(line 118). Metadata entries are opaque values of type `μ`. -/
inductive StoreResult (μ : Type) where
  | valueError
  | noTexts
  | ok (pairs : List (List Char × List ℚ × μ))
deriving DecidableEq

/-- `VectorService.store_vector`, modelling `if len(texts) != len(embeddings)
!= len(metadata_list)` with Python chained-comparison semantics and the
`zip`-based pairing loop. -/
def store_vector {μ : Type} (texts : List (List Char)) (embeddings : List (List ℚ))
    (metadata_list : List μ) : StoreResult μ :=
  if texts.length ≠ embeddings.length ∧ embeddings.length ≠ metadata_list.length then
    .valueError
  else if texts.isEmpty then .noTexts
  else .ok (texts.zip (embeddings.zip metadata_list))

/-- Claim C10: `store_vector` raises `ValueError` exactly when
`len(texts) ≠ len(embeddings)` AND `len(embeddings) ≠ len(metadata_list)`
(Python chained comparison); in particular, when texts and embeddings have
equal length but metadata has a different length the call proceeds and
silently pairs only the first min-length elements via `zip`. -/
theorem store_vector_chained_comparison {μ : Type} (texts : List (List Char))
    (embeddings : List (List ℚ)) (metadata_list : List μ) :
    (store_vector texts embeddings metadata_list = .valueError ↔
        (texts.length ≠ embeddings.length ∧
          embeddings.length ≠ metadata_list.length)) ∧
      (texts.length = embeddings.length → texts ≠ [] →
        ∃ ps, store_vector texts embeddings metadata_list = .ok ps ∧
          ps.length = min texts.length metadata_list.length) := by
  constructor
  · unfold store_vector
    split
    · rename_i hcond
      exact ⟨fun _ => hcond, fun _ => rfl⟩
    · rename_i hcond
      constructor
      · intro h
        split at h <;> cases h
      · intro h
        exact absurd h hcond
  · intro hlen hne
    have hcond : ¬(texts.length ≠ embeddings.length ∧
        embeddings.length ≠ metadata_list.length) := by
      intro h
      exact h.1 hlen
    have hempty : texts.isEmpty = false := by
      cases texts
      · exact absurd rfl hne
      · rfl
    refine ⟨texts.zip (embeddings.zip metadata_list), ?_, ?_⟩
    · unfold store_vector
      rw [if_neg hcond, hempty]
      rfl
    · rw [List.length_zip, List.length_zip, ← hlen]
      omega

/-- Witness for `store_vector_chained_comparison`: equal-length texts and
embeddings with an empty metadata list proceed and pair zero elements. -/
theorem store_vector_chained_comparison_witness :
    ∃ ps, store_vector [['a']] [[(1 : ℚ)]] ([] : List Unit) = .ok ps ∧
      ps.length = min ([['a']] : List (List Char)).length ([] : List Unit).length :=
  (store_vector_chained_comparison [['a']] [[(1 : ℚ)]] ([] : List Unit)).2 rfl
    (by decide)

/-- A retrieved context chunk as consumed by `LLMService` — its text plus the
metadata fields `_extract_sources` and `_format_context` read via
`metadata.get("filename")` / `metadata.get("page")` (absent fields default to
`"Unknown"`). Per the data model, a present page is an integer. -/
structure Hit where
  text : List Char
  filename? : Option (List Char)
  page? : Option Nat
deriving DecidableEq

/-- The `"Unknown"` default of `metadata.get(…, "Unknown")`. -/
def unknownStr : List Char := "Unknown".data

/-- Python rendering of the page value interpolated into f-strings: the decimal
representation of a present integer page, or the `"Unknown"` default. -/
def pageStr : Option Nat → List Char
  | none => unknownStr
  | some n => decRepr n

/-- A source citation as built by `LLMService._extract_sources`
(src/backend/services/llm_service.py, lines 185-189). -/
structure Citation where
  filename : List Char
  page : Option Nat
  text_preview : List Char
deriving DecidableEq

/-- The loop of `LLMService._extract_sources` (lines 173-192): walk the chunks
keeping a `seen` set of `f"{filename}:{page}"` keys, emitting one citation per
unseen key with the preview `text[:150] + "..."`. -/
def extract_sources_aux : List Hit → List (List Char) → List Citation
  | [], _ => []
  | h :: rest, seen =>
      if (h.filename?.getD unknownStr ++ ':' :: pageStr h.page?) ∈ seen then
        extract_sources_aux rest seen
      else
        ⟨h.filename?.getD unknownStr, h.page?, h.text.take 150 ++ "...".data⟩ ::
          extract_sources_aux rest
            ((h.filename?.getD unknownStr ++ ':' :: pageStr h.page?) :: seen)

/-- `LLMService._extract_sources` (lines 163-192). -/
def extract_sources (chunks : List Hit) : List Citation :=
  extract_sources_aux chunks []

/-- The `(source_document, page_number)` pair of a hit, with the same
`"Unknown"` defaulting as the code. -/
def specPairOf (h : Hit) : List Char × Option Nat :=
  (h.filename?.getD unknownStr, h.page?)

/-- The dedup key the code builds for a pair. -/
def keyOfPair (pr : List Char × Option Nat) : List Char :=
  pr.1 ++ ':' :: pageStr pr.2

/-- Spec-side first-occurrence deduplication (helper with an explicit seen
set), used to state the refinement claim about citation extraction. -/
def specFirstSeenDedupAux {α : Type} [DecidableEq α] : List α → List α → List α
  | [], _ => []
  | a :: rest, seen =>
      if a ∈ seen then specFirstSeenDedupAux rest seen
      else a :: specFirstSeenDedupAux rest (a :: seen)

/-- Spec-side first-occurrence deduplication: keep each element's first
occurrence, in order ("deduplicates by (source_document, page_number),
keeping first occurrence order"). -/
def specFirstSeenDedup {α : Type} [DecidableEq α] (l : List α) : List α :=
  specFirstSeenDedupAux l []

theorem digitChar_lt_ne : ∀ d < 10, Nat.digitChar d ≠ ':' ∧ Nat.digitChar d ≠ 'U' := by
  decide

theorem colon_not_mem_decRepr (n : Nat) : ':' ∉ decRepr n := by
  rw [decRepr_eq]
  split
  · decide
  · intro hmem
    rw [List.mem_reverse] at hmem
    rcases List.mem_map.1 hmem with ⟨d, hd, hchar⟩
    exact (digitChar_lt_ne d (Nat.digits_lt_base (by norm_num) hd)).1 hchar

theorem colon_not_mem_pageStr : ∀ p : Option Nat, ':' ∉ pageStr p := by
  intro p
  cases p with
  | none => decide
  | some n => exact colon_not_mem_decRepr n

theorem decRepr_ne_unknown (n : Nat) : decRepr n ≠ unknownStr := by
  intro h
  have hU : 'U' ∈ decRepr n := by rw [h]; decide
  rw [decRepr_eq] at hU
  split at hU
  · simp at hU
  · rw [List.mem_reverse] at hU
    rcases List.mem_map.1 hU with ⟨d, hd, hchar⟩
    exact (digitChar_lt_ne d (Nat.digits_lt_base (by norm_num) hd)).2 hchar

theorem pageStr_inj (p1 p2 : Option Nat) (h : pageStr p1 = pageStr p2) : p1 = p2 := by
  cases p1 with
  | none =>
      cases p2 with
      | none => rfl
      | some n => exact absurd h.symm (decRepr_ne_unknown n)
  | some m =>
      cases p2 with
      | none => exact absurd h (decRepr_ne_unknown m)
      | some n => exact congrArg some (decRepr_inj m n h)

theorem append_colon_inj :
    ∀ (f1 f2 r1 r2 : List Char), ':' ∉ r1 → ':' ∉ r2 →
      f1 ++ ':' :: r1 = f2 ++ ':' :: r2 → f1 = f2 ∧ r1 = r2 := by
  intro f1
  induction f1 with
  | nil =>
      intro f2 r1 r2 h1 h2 h
      cases f2 with
      | nil =>
          simp only [List.nil_append, List.cons.injEq] at h
          exact ⟨rfl, h.2⟩
      | cons b f2' =>
          simp only [List.nil_append, List.cons_append] at h
          injection h with hh ht
          exfalso
          apply h1
          rw [ht]
          exact List.mem_append_right _ (List.mem_cons_self _ _)
  | cons a f1' ih =>
      intro f2 r1 r2 h1 h2 h
      cases f2 with
      | nil =>
          simp only [List.cons_append, List.nil_append] at h
          injection h with hab ht
          exfalso
          apply h2
          rw [← ht]
          exact List.mem_append_right _ (List.mem_cons_self _ _)
      | cons b f2' =>
          simp only [List.cons_append] at h
          injection h with hab ht
          obtain ⟨hf, hr⟩ := ih f2' r1 r2 h1 h2 ht
          exact ⟨by rw [hab, hf], hr⟩

theorem keyOfPair_inj : Function.Injective keyOfPair := by
  intro ⟨f1, p1⟩ ⟨f2, p2⟩ h
  unfold keyOfPair at h
  obtain ⟨hf, hp⟩ := append_colon_inj f1 f2 (pageStr p1) (pageStr p2)
    (colon_not_mem_pageStr p1) (colon_not_mem_pageStr p2) h
  exact Prod.ext hf (pageStr_inj p1 p2 hp)

theorem extract_sources_aux_pairs :
    ∀ (hits : List Hit) (seenP : List (List Char × Option Nat)),
      (extract_sources_aux hits (seenP.map keyOfPair)).map
          (fun c => (c.filename, c.page)) =
        specFirstSeenDedupAux (hits.map specPairOf) seenP := by
  intro hits
  induction hits with
  | nil => intro seenP; rfl
  | cons h rest ih =>
      intro seenP
      rw [extract_sources_aux, List.map_cons, specFirstSeenDedupAux]
      have hkey : (h.filename?.getD unknownStr ++ ':' :: pageStr h.page?) =
          keyOfPair (specPairOf h) := rfl
      have hmem : ((h.filename?.getD unknownStr ++ ':' :: pageStr h.page?) ∈
          seenP.map keyOfPair) ↔ specPairOf h ∈ seenP := by
        rw [hkey]
        constructor
        · intro hm
          rcases List.mem_map.1 hm with ⟨pr, hpr, heq⟩
          rwa [← keyOfPair_inj heq]
        · exact fun hm => List.mem_map_of_mem keyOfPair hm
      by_cases hc : specPairOf h ∈ seenP
      · rw [if_pos (hmem.2 hc), if_pos hc]
        exact ih seenP
      · rw [if_neg (fun hm => hc (hmem.1 hm)), if_neg hc, List.map_cons]
        have hrec := ih (specPairOf h :: seenP)
        rw [List.map_cons, ← hkey] at hrec
        rw [hrec]
        rfl

theorem extract_sources_aux_preview_le :
    ∀ (hits : List Hit) (seen : List (List Char)) (c : Citation),
      c ∈ extract_sources_aux hits seen → c.text_preview.length ≤ 153 := by
  intro hits
  induction hits with
  | nil => intro seen c hc; simp [extract_sources_aux] at hc
  | cons h rest ih =>
      intro seen c hc
      rw [extract_sources_aux] at hc
      split at hc
      · exact ih _ _ hc
      · rcases List.mem_cons.1 hc with hc | hc
        · subst hc
          show (h.text.take 150 ++ "...".data).length ≤ 153
          rw [List.length_append]
          have h1 : (h.text.take 150).length ≤ 150 := by
            rw [List.length_take]
            omega
          have h2 : ("...".data).length = 3 := rfl
          omega
        · exact ih _ _ hc

theorem specFirstSeenDedupAux_mem {α : Type} [DecidableEq α] :
    ∀ (l seen : List α) (a : α),
      a ∈ specFirstSeenDedupAux l seen ↔ (a ∈ l ∧ a ∉ seen) := by
  intro l
  induction l with
  | nil => intro seen a; simp [specFirstSeenDedupAux]
  | cons b rest ih =>
      intro seen a
      rw [specFirstSeenDedupAux]
      split
      · rename_i hb
        rw [ih]
        constructor
        · intro ⟨h1, h2⟩
          exact ⟨List.mem_cons_of_mem _ h1, h2⟩
        · intro ⟨h1, h2⟩
          rcases List.mem_cons.1 h1 with h1 | h1
          · subst h1; exact absurd hb h2
          · exact ⟨h1, h2⟩
      · rename_i hb
        constructor
        · intro hm
          rcases List.mem_cons.1 hm with hm | hm
          · subst hm
            exact ⟨List.mem_cons_self _ _, hb⟩
          · rw [ih] at hm
            refine ⟨List.mem_cons_of_mem _ hm.1, ?_⟩
            intro hs
            exact hm.2 (List.mem_cons_of_mem _ hs)
        · intro ⟨h1, h2⟩
          rcases List.mem_cons.1 h1 with h1 | h1
          · subst h1; exact List.mem_cons_self _ _
          · by_cases hab : a = b
            · subst hab; exact List.mem_cons_self _ _
            · refine List.mem_cons_of_mem _ ?_
              rw [ih]
              refine ⟨h1, ?_⟩
              intro hs
              rcases List.mem_cons.1 hs with hs | hs
              · exact hab hs
              · exact h2 hs

theorem specFirstSeenDedup_mem {α : Type} [DecidableEq α] (l : List α) (a : α) :
    a ∈ specFirstSeenDedup l ↔ a ∈ l := by
  rw [specFirstSeenDedup, specFirstSeenDedupAux_mem]
  simp

theorem specFirstSeenDedupAux_nodup {α : Type} [DecidableEq α] :
    ∀ (l seen : List α), (specFirstSeenDedupAux l seen).Nodup := by
  intro l
  induction l with
  | nil => intro seen; simp [specFirstSeenDedupAux]
  | cons b rest ih =>
      intro seen
      rw [specFirstSeenDedupAux]
      split
      · exact ih _
      · refine List.Nodup.cons ?_ (ih _)
        intro hb
        rw [specFirstSeenDedupAux_mem] at hb
        exact hb.2 (List.mem_cons_self _ _)

theorem specFirstSeenDedup_nodup {α : Type} [DecidableEq α] (l : List α) :
    (specFirstSeenDedup l).Nodup :=
  specFirstSeenDedupAux_nodup l []

/-- Claim C5: citation extraction produces, in the order of first occurrence,
exactly the distinct `(source_document, page_number)` pairs of the hit
sequence — the citation pairs equal the spec-side first-seen deduplication of
the hit pairs (which is duplicate-free and has exactly the distinct pairs as
members, hence exactly M citations for M distinct pairs) — and every preview
text is truncated to at most 153 characters (`text[:150] + "..."`). -/
theorem extract_sources_dedup_first_seen (hits : List Hit) :
    ((extract_sources hits).map (fun c => (c.filename, c.page)) =
        specFirstSeenDedup (hits.map specPairOf)) ∧
      ((extract_sources hits).map (fun c => (c.filename, c.page))).Nodup ∧
      (∀ pr, pr ∈ (extract_sources hits).map (fun c => (c.filename, c.page)) ↔
        pr ∈ hits.map specPairOf) ∧
      ∀ c ∈ extract_sources hits, c.text_preview.length ≤ 153 := by
  have hmain : (extract_sources hits).map (fun c => (c.filename, c.page)) =
      specFirstSeenDedup (hits.map specPairOf) := extract_sources_aux_pairs hits []
  refine ⟨hmain, ?_, ?_, ?_⟩
  · rw [hmain]
    exact specFirstSeenDedup_nodup _
  · intro pr
    rw [hmain]
    exact specFirstSeenDedup_mem _ _
  · exact fun c hc => extract_sources_aux_preview_le hits [] c hc

/-- The fixed fallback answer of `query_documents` (src/backend/main.py,
line 168). -/
def fallbackAnswer : List Char :=
  "I couldn".data ++ '\x27' ::
    "t find any relevant information in the uploaded documents to answer your question.".data

/-- The per-chunk sections of `LLMService._format_context` (lines 121-131):
`f"[Source {i}: {filename}, Page {page}]\n{text}\n"`, numbered from 1. -/
def format_context_parts : List Hit → Nat → List (List Char)
  | [], _ => []
  | h :: rest, i =>
      ("[Source ".data ++ decRepr i ++ ": ".data ++ h.filename?.getD unknownStr ++
        ", Page ".data ++ pageStr h.page? ++ "]".data ++ '\n' :: h.text ++ ['\n']) ::
        format_context_parts rest (i + 1)

/-- Python `"\n".join(parts)`. -/
def joinNl : List (List Char) → List Char
  | [] => []
  | [p] => p
  | p :: q :: rest => p ++ '\n' :: joinNl (q :: rest)

/-- `LLMService._format_context` (lines 108-133). -/
def format_context (chunks : List Hit) : List Char :=
  if chunks.isEmpty then "No relevant context found.".data
  else joinNl (format_context_parts chunks 1)

/-- Leading part of the RAG prompt f-string of `_build_rag_prompt`
(lines 146-159). -/
def ragPromptPre : List Char :=
  "You are answering questions based on document content. Use the context below to answer the question.\n                CONTEXT:\n                ".data

/-- Middle part of the RAG prompt f-string, between context and question. -/
def ragPromptMid : List Char := "\n\n                QUESTION: ".data

/-- Trailing part (the INSTRUCTIONS block) of the RAG prompt f-string. -/
def ragPromptTail : List Char :=
  "\n\n                INSTRUCTIONS:\n                - Answer the question using ONLY the information from the context above\n                - Cite which source (filename and page) you got the information from\n                - If the context doesn".data ++
    '\x27' :: "t contain the answer, say \"I don".data ++
    '\x27' :: "t have enough information to answer this question.\"\n                - Be concise but complete\n                - Format your answer clearly\n\n                ANSWER:".data

/-- `LLMService._build_rag_prompt` (lines 135-161). -/
def build_rag_prompt (question context : List Char) : List Char :=
  ragPromptPre ++ context ++ ragPromptMid ++ question ++ ragPromptTail

/-- Result of `LLMService.generate_answer` (lines 38-98), with the number of
generation-provider invocations made. -/
structure AnswerResult where
  answer : List Char
  sources : List Citation
  calls : Nat
deriving DecidableEq

/-- `LLMService.generate_answer` (lines 38-98): format the context, build the
prompt, call the provider once, and attach extracted citations. The provider is
an opaque function `gen`. -/
def generate_answer (gen : List Char → List Char) (question : List Char)
    (context_chunks : List Hit) : AnswerResult :=
  ⟨gen (build_rag_prompt question (format_context context_chunks)),
    extract_sources context_chunks, 1⟩

/-- Response of the query pipeline after a successful search. -/
structure QueryResponse where
  answer : List Char
  sources : List Citation
  providerCalls : Nat
deriving DecidableEq

/-- The answer-synthesis tail of `query_documents` (src/backend/main.py,
lines 164-206): an empty retrieval set short-circuits to the fixed fallback
answer with no citations and no provider call; otherwise `generate_answer` is
invoked on the hits. -/
def query_documents_synthesize (gen : List Char → List Char) (question : List Char)
    (results : List Hit) : QueryResponse :=
  if results.isEmpty then ⟨fallbackAnswer, [], 0⟩
  else
    ⟨(generate_answer gen question results).answer,
      (generate_answer gen question results).sources,
      (generate_answer gen question results).calls⟩

/-- Claim C6: for every non-empty question and every generation provider,
synthesis on an empty hit sequence returns the fixed fallback answer and an
empty citation list, and makes zero provider calls. -/
theorem query_empty_hits_fallback (gen : List Char → List Char)
    (question : List Char) (_hq : question ≠ []) :
    query_documents_synthesize gen question [] = ⟨fallbackAnswer, [], 0⟩ := rfl

/-- Witness for `query_empty_hits_fallback` at a concrete question and
provider. -/
theorem query_empty_hits_fallback_witness :
    "hi".data ≠ [] ∧
      query_documents_synthesize (fun _ => []) "hi".data [] = ⟨fallbackAnswer, [], 0⟩ :=
  ⟨by decide, query_empty_hits_fallback (fun _ => []) "hi".data (by decide)⟩

/-- Adjacent characters are not both whitespace. -/
def nodW (a b : Char) : Prop := ¬(pyWsp a = true ∧ pyWsp b = true)

theorem pyIdx_nonneg (n : Nat) (i : Int) (h : 0 ≤ i) : pyIdx n i = min i.toNat n := by
  unfold pyIdx
  rw [if_neg (by omega)]
  omega

theorem pySlice_eq (t : List Char) (a b : Int) (ha : 0 ≤ a) (hb : 0 ≤ b) :
    pySlice t a b = (t.take (min b.toNat t.length)).drop (min a.toNat t.length) := by
  unfold pySlice
  rw [pyIdx_nonneg _ _ ha, pyIdx_nonneg _ _ hb]

theorem pySlice_length (t : List Char) (a b : Int) (ha : 0 ≤ a) (hab : a ≤ b)
    (hbl : b ≤ (t.length : Int)) :
    (pySlice t a b).length = (b - a).toNat := by
  rw [pySlice_eq _ _ _ ha (le_trans ha hab), List.length_drop, List.length_take]
  omega

theorem pySlice_to_end (t : List Char) (a b : Int) (ha : 0 ≤ a)
    (hal : a ≤ (t.length : Int)) (hb : (t.length : Int) ≤ b) :
    pySlice t a b = t.drop a.toNat := by
  rw [pySlice_eq _ _ _ ha (le_trans (Int.ofNat_nonneg _) hb)]
  have h1 : min b.toNat t.length = t.length := by omega
  have h2 : min a.toNat t.length = a.toNat := by omega
  rw [h1, h2, List.take_length]

theorem chain'_take {R : Char → Char → Prop} (l : List Char) (h : l.Chain' R) (k : Nat) :
    (l.take k).Chain' R := by
  rw [← List.take_append_drop k l] at h
  exact (List.chain'_append.1 h).1

theorem chain'_drop {R : Char → Char → Prop} (l : List Char) (h : l.Chain' R) (k : Nat) :
    (l.drop k).Chain' R := by
  rw [← List.take_append_drop k l] at h
  exact (List.chain'_append.1 h).2.1

theorem noDblWsp_chain' : ∀ t : List Char, noDblWsp t = true ↔ t.Chain' nodW := by
  intro t
  induction t with
  | nil => simp [noDblWsp]
  | cons a t ih =>
      cases t with
      | nil => simp [noDblWsp]
      | cons b u =>
          rw [noDblWsp, List.chain'_cons, ← ih]
          rw [Bool.and_eq_true, Bool.not_eq_true', Bool.and_eq_false_iff]
          unfold nodW
          constructor
          · intro ⟨h1, h2⟩
            refine ⟨?_, h2⟩
            intro ⟨ha, hb⟩
            rcases h1 with h1 | h1
            · rw [ha] at h1; cases h1
            · rw [hb] at h1; cases h1
          · intro ⟨h1, h2⟩
            refine ⟨?_, h2⟩
            by_cases ha : pyWsp a = true
            · by_cases hb : pyWsp b = true
              · exact absurd ⟨ha, hb⟩ h1
              · right; exact Bool.not_eq_true _ ▸ (by simpa using hb)
            · left; simpa using ha

theorem takeWhile_wsp_le_one (w : List Char) (hw : w.Chain' nodW) :
    (w.takeWhile pyWsp).length ≤ 1 := by
  cases w with
  | nil => simp
  | cons a t =>
      cases t with
      | nil =>
          by_cases h : pyWsp a = true <;> simp [List.takeWhile_cons, h]
      | cons b u =>
          rw [List.chain'_cons] at hw
          by_cases ha : pyWsp a = true
          · have hb : pyWsp b = false := by
              by_cases hb : pyWsp b = true
              · exact absurd ⟨ha, hb⟩ hw.1
              · simpa using hb
            simp [List.takeWhile_cons, ha, hb]
          · simp [List.takeWhile_cons, ha]

theorem length_le_dropWhile_add (p : Char → Bool) (l : List Char) :
    l.length ≤ (l.dropWhile p).length + (l.takeWhile p).length := by
  have h := congrArg List.length (List.takeWhile_append_dropWhile p l)
  rw [List.length_append] at h
  omega

theorem chain'_dropWhile_wsp (w : List Char) (hw : w.Chain' nodW) :
    (w.dropWhile pyWsp).Chain' nodW := by
  rw [← List.takeWhile_append_dropWhile pyWsp w] at hw
  exact (List.chain'_append.1 hw).2.1

theorem chain'_reverse_nodW (u : List Char) (hu : u.Chain' nodW) :
    u.reverse.Chain' nodW := by
  rw [List.chain'_reverse]
  refine hu.imp ?_
  intro a b h
  intro ⟨x, y⟩
  exact h ⟨y, x⟩

theorem pyStrip_length_eq (w : List Char) :
    (pyStrip w).length = ((w.dropWhile pyWsp).reverse.dropWhile pyWsp).length := by
  rw [pyStrip, List.length_reverse]

theorem pyStrip_length_ge (w : List Char) (hw : w.Chain' nodW) :
    w.length ≤ (pyStrip w).length + 2 := by
  have h1 : w.length ≤ (w.dropWhile pyWsp).length + 1 := by
    have ha := length_le_dropWhile_add pyWsp w
    have hb := takeWhile_wsp_le_one w hw
    omega
  have hcu := chain'_dropWhile_wsp w hw
  have hcur := chain'_reverse_nodW _ hcu
  have h2 : (w.dropWhile pyWsp).reverse.length ≤
      ((w.dropWhile pyWsp).reverse.dropWhile pyWsp).length + 1 := by
    have ha := length_le_dropWhile_add pyWsp (w.dropWhile pyWsp).reverse
    have hb := takeWhile_wsp_le_one _ hcur
    omega
  rw [List.length_reverse] at h2
  rw [pyStrip_length_eq]
  omega

theorem pyStrip_length_ge_of_last (w : List Char) (hw : w.Chain' nodW)
    (hlast : ∀ c, w.getLast? = some c → pyWsp c = false) :
    w.length ≤ (pyStrip w).length + 1 := by
  have h1 : w.length ≤ (w.dropWhile pyWsp).length + 1 := by
    have ha := length_le_dropWhile_add pyWsp w
    have hb := takeWhile_wsp_le_one w hw
    omega
  cases hu0 : w.dropWhile pyWsp with
  | nil =>
      have h2 : (w.dropWhile pyWsp).length = 0 := by rw [hu0]; rfl
      omega
  | cons a t =>
      have hne : w.dropWhile pyWsp ≠ [] := by rw [hu0]; simp
      have hlastu : (w.dropWhile pyWsp).getLast? = w.getLast? := by
        conv_rhs => rw [← List.takeWhile_append_dropWhile pyWsp w]
        exact (List.getLast?_append_of_ne_nil _ hne).symm
      have hdrop : (w.dropWhile pyWsp).reverse.dropWhile pyWsp =
          (w.dropWhile pyWsp).reverse := by
        cases hur : (w.dropWhile pyWsp).reverse with
        | nil => rfl
        | cons c cs =>
            have hc : pyWsp c = false := by
              refine hlast c ?_
              rw [← hlastu, ← List.head?_reverse, hur]
              rfl
            rw [List.dropWhile_cons, hc]
            simp
      have h3 : (pyStrip w).length = (w.dropWhile pyWsp).length := by
        rw [pyStrip_length_eq, hdrop, List.length_reverse]
      omega

theorem pyRfindAux_bounds (pat : List Char) :
    ∀ (l : List Char) (i : Nat) (best : Int),
      (best = -1 ∨ (0 ≤ best ∧ best + pat.length ≤ (i : Int) + l.length)) →
      (pyRfindAux pat l i best = -1 ∨
        (0 ≤ pyRfindAux pat l i best ∧
          pyRfindAux pat l i best + pat.length ≤ (i : Int) + l.length)) := by
  intro l
  induction l with
  | nil =>
      intro i best h
      simpa [pyRfindAux] using h
  | cons c rest ih =>
      intro i best h
      rw [pyRfindAux]
      have hside : (if pat.isPrefixOf (c :: rest) then (i : Int) else best) = -1 ∨
          (0 ≤ (if pat.isPrefixOf (c :: rest) then (i : Int) else best) ∧
            (if pat.isPrefixOf (c :: rest) then (i : Int) else best) + pat.length ≤
              ((i + 1 : Nat) : Int) + rest.length) := by
        split
        · rename_i hpre
          have hlen : pat.length ≤ (c :: rest).length :=
            (List.isPrefixOf_iff_prefix.mp hpre).length_le
          right
          constructor
          · omega
          · rw [List.length_cons] at hlen
            push_cast
            omega
        · rcases h with h | h
          · exact Or.inl h
          · right
            rw [List.length_cons] at h
            push_cast
            push_cast at h
            omega
      have hres := ih (i + 1) _ hside
      rcases hres with hres | hres
      · exact Or.inl hres
      · right
        refine ⟨hres.1, ?_⟩
        rw [List.length_cons]
        push_cast
        push_cast at hres
        omega

theorem pyRfind_bounds (t pat : List Char) :
    pyRfind t pat = -1 ∨
      (0 ≤ pyRfind t pat ∧ pyRfind t pat + pat.length ≤ (t.length : Int)) := by
  have h := pyRfindAux_bounds pat t 0 (-1) (Or.inl rfl)
  simpa [pyRfind] using h

theorem adjustEnd_final (text : List Char) (e0 : Int)
    (h : (text.length : Int) ≤ e0) : adjustEnd text e0 = e0 := by
  unfold adjustEnd
  rw [if_neg (by omega)]

theorem adjustEnd_bounds_interior (text : List Char) (e0 : Int)
    (h100 : 100 ≤ e0) (hlt : e0 < (text.length : Int)) :
    e0 - 99 ≤ adjustEnd text e0 ∧ adjustEnd text e0 ≤ e0 := by
  unfold adjustEnd
  rw [if_pos hlt]
  have hplen : ((pySlice text (e0 - 100) e0).length : Int) = 100 := by
    rw [pySlice_length text (e0 - 100) e0 (by omega) (by omega) (by omega)]
    omega
  have hr1 := pyRfind_bounds (pySlice text (e0 - 100) e0) ['.', ' ']
  have hr2 := pyRfind_bounds (pySlice text (e0 - 100) e0) ['!', ' ']
  have hr3 := pyRfind_bounds (pySlice text (e0 - 100) e0) ['?', ' ']
  rw [hplen] at hr1 hr2 hr3
  simp only [List.length_cons, List.length_nil] at hr1 hr2 hr3
  split
  · rename_i hse
    push_cast at hr1 hr2 hr3
    omega
  · have hplen2 : ((pySlice text (e0 - 50) e0).length : Int) = 50 := by
      rw [pySlice_length text (e0 - 50) e0 (by omega) (by omega) (by omega)]
      omega
    have hw := pyRfind_bounds (pySlice text (e0 - 50) e0) [' ']
    rw [hplen2] at hw
    simp only [List.length_cons, List.length_nil] at hw
    split
    · rename_i hwb
      push_cast at hw
      omega
    · omega

theorem chunkStep_fst_default (text : List Char) (s : Int) :
    (chunkStep text 500 50 s).1 = adjustEnd text (s + 500) - 50 := by
  show (if adjustEnd text (s + 500) - 50 ≤ adjustEnd text (s + 500) - 500 then
      adjustEnd text (s + 500)
    else adjustEnd text (s + 500) - 50) = adjustEnd text (s + 500) - 50
  rw [if_neg (by omega)]

theorem chunkStep_snd_eq (text : List Char) (cs ov s : Int) :
    (chunkStep text cs ov s).2 = pyStrip (pySlice text s (adjustEnd text (s + cs))) := rfl

theorem chunkStep_interior (text : List Char) (s : Int) (h0 : 0 ≤ s)
    (hin : s + 500 < (text.length : Int)) (hnorm : text.Chain' nodW) :
    s + 401 ≤ adjustEnd text (s + 500) ∧ adjustEnd text (s + 500) ≤ s + 500 ∧
      (chunkStep text 500 50 s).1 = adjustEnd text (s + 500) - 50 ∧
      adjustEnd text (s + 500) - s ≤ ((chunkStep text 500 50 s).2.length : Int) + 2 := by
  obtain ⟨hb1, hb2⟩ := adjustEnd_bounds_interior text (s + 500) (by omega) hin
  refine ⟨by omega, by omega, chunkStep_fst_default text s, ?_⟩
  rw [chunkStep_snd_eq]
  have hslice : ((pySlice text s (adjustEnd text (s + 500))).length : Int) =
      adjustEnd text (s + 500) - s := by
    rw [pySlice_length text s (adjustEnd text (s + 500)) h0 (by omega) (by omega)]
    omega
  have hchain : (pySlice text s (adjustEnd text (s + 500))).Chain' nodW := by
    rw [pySlice_eq text s (adjustEnd text (s + 500)) h0 (by omega)]
    exact chain'_drop _ (chain'_take _ hnorm _) _
  have hstrip := pyStrip_length_ge (pySlice text s (adjustEnd text (s + 500))) hchain
  push_cast at hstrip ⊢
  omega

theorem chunkStep_final (text : List Char) (s : Int) (h0 : 0 ≤ s)
    (hs : s < (text.length : Int)) (hfin : (text.length : Int) ≤ s + 500)
    (hnorm : text.Chain' nodW)
    (hlast : ∀ c, text.getLast? = some c → pyWsp c = false) :
    (chunkStep text 500 50 s).1 = s + 450 ∧
      (text.length : Int) - s ≤ ((chunkStep text 500 50 s).2.length : Int) + 1 := by
  have hadj : adjustEnd text (s + 500) = s + 500 := adjustEnd_final text (s + 500) hfin
  constructor
  · rw [chunkStep_fst_default, hadj]
    ring
  · rw [chunkStep_snd_eq, hadj]
    have hslice : pySlice text s (s + 500) = text.drop s.toNat :=
      pySlice_to_end text s (s + 500) h0 (by omega) hfin
    rw [hslice]
    have hlen : ((text.drop s.toNat).length : Int) = (text.length : Int) - s := by
      rw [List.length_drop]
      omega
    have hchain : (text.drop s.toNat).Chain' nodW := chain'_drop _ hnorm _
    have hne : text.drop s.toNat ≠ [] := by
      intro hnil
      have h2 := congrArg List.length hnil
      rw [List.length_drop] at h2
      simp at h2
      omega
    have hlast2 : ∀ c, (text.drop s.toNat).getLast? = some c → pyWsp c = false := by
      intro c hc
      refine hlast c ?_
      have heq : text.getLast? = (text.drop s.toNat).getLast? := by
        conv_lhs => rw [← List.take_append_drop s.toNat text]
        exact List.getLast?_append_of_ne_nil _ hne
      rw [heq]
      exact hc
    have hstrip := pyStrip_length_ge_of_last (text.drop s.toNat) hchain hlast2
    push_cast at hstrip ⊢
    omega

/-- Total character count of a list of chunks. -/
def sumLen (l : List (List Char)) : Nat := (l.map List.length).sum

theorem sumLen_append_chunk (acc : List (List Char)) (c : List Char) :
    sumLen (if c.isEmpty then acc else acc ++ [c]) = sumLen acc + c.length := by
  cases c with
  | nil => simp [sumLen]
  | cons a t => simp [sumLen]

theorem chunkLoopSum (text : List Char) (hnorm : text.Chain' nodW)
    (hlast : ∀ c, text.getLast? = some c → pyWsp c = false) :
    ∀ (fuel : Nat) (s : Int) (acc res : List (List Char)), 0 ≤ s →
      chunkLoop text 500 50 fuel s acc = some res →
      (text.length : Int) - s - 1 + sumLen acc ≤ sumLen res := by
  intro fuel
  induction fuel with
  | zero => intro s acc res h0 h; cases h
  | succ n ih =>
      intro s acc res h0 h
      rw [chunkLoop] at h
      split at h
      · rename_i hslt
        by_cases hint : s + 500 < (text.length : Int)
        · obtain ⟨hb1, hb2, hfst, hlen⟩ := chunkStep_interior text s h0 hint hnorm
          rw [hfst] at h
          have hrec := ih (adjustEnd text (s + 500) - 50) _ res (by omega) h
          rw [sumLen_append_chunk] at hrec
          push_cast at hrec hlen ⊢
          omega
        · obtain ⟨hfst, hlen⟩ := chunkStep_final text s h0 hslt (by omega) hnorm hlast
          rw [hfst] at h
          by_cases hnext : s + 450 < (text.length : Int)
          · have hrec := ih (s + 450) _ res (by omega) h
            rw [sumLen_append_chunk] at hrec
            push_cast at hrec hlen ⊢
            omega
          · cases n with
            | zero => cases h
            | succ m =>
                rw [chunkLoop] at h
                rw [if_neg hnext] at h
                cases h
                rw [sumLen_append_chunk]
                push_cast at hlen ⊢
                omega
      · cases h
        omega

theorem chunk_text_sum (text : List Char) (fuel : Nat) (chunks : List (List Char))
    (hnorm : normalizedB text = true)
    (h : chunk_text text 500 50 fuel = some chunks) :
    (text.length : Int) ≤ (sumLen chunks : Int) := by
  have hparts : noDblWsp text = true ∧
      text.getLast?.all (fun c => !pyWsp c) = true := by
    unfold normalizedB at hnorm
    rw [Bool.and_eq_true, Bool.and_eq_true] at hnorm
    exact ⟨hnorm.1.1, hnorm.2⟩
  have hnd : text.Chain' nodW := (noDblWsp_chain' text).mp hparts.1
  have hlast : ∀ c, text.getLast? = some c → pyWsp c = false := by
    intro c hc
    have h2 := hparts.2
    rw [hc] at h2
    simpa using h2
  unfold chunk_text at h
  split at h
  · cases h
    rename_i hlen0
    rw [hlen0]
    simp [sumLen]
  · split at h
    · cases h
      simp [sumLen]
    · rename_i hne hgt
      cases fuel with
      | zero => cases h
      | succ n =>
          rw [chunkLoop] at h
          rw [if_pos (by omega : (0 : Int) < (text.length : Int))] at h
          obtain ⟨hb1, hb2, hfst, hlen⟩ :=
            chunkStep_interior text 0 le_rfl (by push_cast at hgt ⊢; omega) hnd
          rw [hfst] at h
          have hrec := chunkLoopSum text hnd hlast n _ _ chunks (by omega) h
          rw [sumLen_append_chunk] at hrec
          have hacc : sumLen ([] : List (List Char)) = 0 := rfl
          rw [hacc] at hrec
          push_cast at hrec hlen ⊢
          omega

/-- Total char_count of a list of chunk records. -/
def sumCharCount (recs : List ChunkRec) : Nat := (recs.map ChunkRec.char_count).sum

theorem attachChunks_page (pn : Int) :
    ∀ (idx : Nat) (cks : List (List Char)) (r : ChunkRec),
      r ∈ attachChunks pn idx cks → r.page = pn := by
  intro idx cks
  induction cks generalizing idx with
  | nil => intro r hr; simp [attachChunks] at hr
  | cons c cs ih =>
      intro r hr
      rw [attachChunks] at hr
      rcases List.mem_cons.1 hr with hr | hr
      · subst hr; rfl
      · exact ih _ r hr

theorem attachChunks_sum (pn : Int) :
    ∀ (idx : Nat) (cks : List (List Char)),
      sumCharCount (attachChunks pn idx cks) = sumLen cks := by
  intro idx cks
  induction cks generalizing idx with
  | nil => rfl
  | cons c cs ih =>
      rw [attachChunks]
      show c.length + sumCharCount (attachChunks pn (idx + 1) cs) = sumLen (c :: cs)
      rw [ih]
      rfl

theorem sumCharCount_append (a b : List ChunkRec) :
    sumCharCount (a ++ b) = sumCharCount a + sumCharCount b := by
  simp [sumCharCount]

/-- Claim C4 (amended): with the default configuration
`chunk_size = 500, overlap = 50`, for every page whose text is
whitespace-normalised, whenever `chunk_pages` terminates the sum of
`char_count` over the records carrying that page's number is at least the
page's text length. (For arbitrary valid configurations the claim is false —
see the counterexample: stripping can lose edge whitespace that a small
overlap does not recover.) -/
theorem chunk_pages_charCount_sum_ge_default (pages : List PageRec) (fuel : Nat)
    (recs : List ChunkRec)
    (hnorm : ∀ p ∈ pages, normalizedB p.text = true)
    (h : chunk_pages pages 500 50 fuel = some recs) :
    ∀ p ∈ pages, (p.text.length : Int) ≤
      (sumCharCount (recs.filter (fun r => r.page = p.page_number)) : Int) := by
  unfold chunk_pages at h
  suffices H : ∀ (ps : List PageRec) (idx : Nat) (rs : List ChunkRec),
      (∀ p ∈ ps, normalizedB p.text = true) →
      chunk_pages_aux 500 50 fuel ps idx = some rs →
      ∀ p ∈ ps, (p.text.length : Int) ≤
        (sumCharCount (rs.filter (fun r => r.page = p.page_number)) : Int) by
    exact H pages 0 recs hnorm h
  intro ps
  induction ps with
  | nil => intro idx rs _ hh p hp; simp at hp
  | cons q rest ih =>
      intro idx rs hps hh p hp
      rw [chunk_pages_aux] at hh
      split at hh
      · rename_i hqe
        rcases List.mem_cons.1 hp with hp | hp
        · subst hp
          rw [List.isEmpty_iff.mp hqe]
          simp
        · exact ih idx rs (fun x hx => hps x (List.mem_cons_of_mem _ hx)) hh p hp
      · rcases hck : chunk_text q.text 500 50 fuel with _ | cks
        · rw [hck] at hh; cases hh
        · rw [hck] at hh
          dsimp only at hh
          rcases hrest : chunk_pages_aux 500 50 fuel rest (idx + cks.length) with _ | rs2
          · rw [hrest] at hh; cases hh
          · rw [hrest] at hh
            dsimp only at hh
            cases hh
            rw [List.filter_append, sumCharCount_append]
            rcases List.mem_cons.1 hp with hp | hp
            · subst hp
              have hfb : (attachChunks p.page_number idx cks).filter
                  (fun r => decide (r.page = p.page_number)) =
                  attachChunks p.page_number idx cks := by
                refine List.filter_eq_self.mpr ?_
                intro r hr
                have hpg := attachChunks_page p.page_number idx cks r hr
                simp [hpg]
              rw [hfb, attachChunks_sum]
              have hsum := chunk_text_sum p.text fuel cks
                (hps p (List.mem_cons_self _ _)) hck
              push_cast at hsum ⊢
              omega
            · have hrec := ih _ rs2 (fun x hx => hps x (List.mem_cons_of_mem _ hx))
                hrest p hp
              push_cast at hrec ⊢
              omega

/-- Witness for `chunk_pages_charCount_sum_ge_default` at a concrete input. -/
theorem chunk_pages_charCount_sum_ge_default_witness :
    (∀ p ∈ [(⟨1, ['o', 'k']⟩ : PageRec)], normalizedB p.text = true) ∧
      ∀ p ∈ [(⟨1, ['o', 'k']⟩ : PageRec)], (p.text.length : Int) ≤
        (sumCharCount (([(⟨['o', 'k'], 1, 0, 2⟩ : ChunkRec)]).filter
          (fun r => r.page = p.page_number)) : Int) :=
  ⟨by decide,
    chunk_pages_charCount_sum_ge_default [⟨1, ['o', 'k']⟩] 1
      [⟨['o', 'k'], 1, 0, 2⟩] (by decide) (by decide)⟩
